import Mathlib

/-!
Verification of the content indexing and navigation-resolution engine of the
Recall repository (a static knowledge-base site serving topic-organized
question/answer markdown documents).

The repository ships the content corpus (the directory tree under
`src/content`) but the engine itself (PathOrderCodec, DocumentScanner,
NavigationTreeBuilder, ContentResolver) is not present among the source
files; it is modelled here from the specification, definition by definition,
each marked `Modelled from the spec`.  The content corpus is embedded
verbatim as `contentRoot` below and the modelled engine is run against it.
-/

/-- Lowercase a single ASCII character; other characters are unchanged. -/
def charLower (c : Char) : Char :=
  if 'A' ≤ c ∧ c ≤ 'Z' then Char.ofNat (c.toNat + 32) else c

/-- Modelled from the spec: slug normalization maps underscores and spaces
to hyphens after lowercasing. -/
def slugChar (c : Char) : Char :=
  let l := charLower c
  if l = '_' ∨ l = ' ' then '-' else l

/-- Modelled from the spec: slug of a base name is the base name lowercased
with underscores and spaces normalized to hyphens. -/
def slugChars (cs : List Char) : List Char := cs.map slugChar

/-- Character class of the slug validation pattern: lowercase letters,
digits, and hyphen. -/
def isSlugChar (c : Char) : Bool :=
  ('a' ≤ c && c ≤ 'z') || ('0' ≤ c && c ≤ '9') || c = '-'

/-- Modelled from the spec: a valid slug is nonempty and drawn entirely from
lowercase letters, digits and hyphens. -/
def validSlug (cs : List Char) : Bool := !cs.isEmpty && cs.all isSlugChar

/-- Split a character list into its maximal leading run of decimal digits
and the remainder. -/
def takeLeadingDigits : List Char → List Char × List Char
  | [] => ([], [])
  | c :: cs =>
    if c.isDigit then
      let p := takeLeadingDigits cs
      (c :: p.1, p.2)
    else ([], c :: cs)

/-- Value of a list of decimal digit characters, most significant first. -/
def digitsVal (ds : List Char) : Nat :=
  ds.foldl (fun a c => a * 10 + (c.toNat - 48)) 0

/-- Result of decoding a raw filesystem name: an optional explicit order
(none is the sentinel that sorts after every explicit order) and the base
name with the ordering prefix stripped. -/
structure ParsedName where
  order : Option Nat
  base : List Char
deriving DecidableEq

/-- Separator characters accepted between the numeric ordering prefix and
the base name. -/
def isSep (c : Char) : Bool := c = '_' || c = '-'

/-- Modelled from the spec: PathOrderCodec parsing rule.  A name of the
shape digits-then-separator-then-nonempty-remainder yields the digits as
the explicit order and the remainder as the base name; any other name
yields the sentinel order (modelled as `none`, which sorts after every
explicit order) and the unmodified name as base. -/
def parseName (cs : List Char) : ParsedName :=
  match takeLeadingDigits cs with
  | (ds, s :: rest) =>
    if ds.isEmpty then ⟨none, cs⟩
    else if isSep s && !rest.isEmpty then ⟨some (digitsVal ds), rest⟩
    else ⟨none, cs⟩
  | (_, []) => ⟨none, cs⟩

/-- Property of a raw name matching the ordering-prefix pattern: one or
more digits, then an underscore or hyphen separator, then a nonempty
remainder. -/
def matchesOrdered (cs : List Char) : Prop :=
  ∃ ds s rest, cs = ds ++ s :: rest ∧ ds ≠ [] ∧ (∀ c ∈ ds, c.isDigit = true) ∧
    (s = '_' ∨ s = '-') ∧ rest ≠ []

/-- Comparison of order keys: explicit orders compare as integers, and the
sentinel (`none`) is strictly greater than every explicit order. -/
def orderLtB : Option Nat → Option Nat → Bool
  | some m, some n => m < n
  | some _, none => true
  | none, _ => false

/-- Lexicographic strict comparison of character lists. -/
def charsLt : List Char → List Char → Bool
  | [], [] => false
  | [], _ :: _ => true
  | _ :: _, [] => false
  | a :: as, b :: bs => if a = b then charsLt as bs else decide (a < b)

/-- Content variants a topic can offer. -/
inductive Variant where
  | questionsOnly
  | questionsAndAnswers
deriving DecidableEq

/-- Modelled from the spec: a document file is classified as the
questions-and-answers variant when its name follows the with-answers naming
convention of the corpus, and as the questions-only variant otherwise. -/
def classifyDoc (name : String) : Variant :=
  if name = "Questions_and_Answers.md" then .questionsAndAnswers else .questionsOnly

mutual
/-- Filesystem entry as seen by the document scanner: a file or a directory
with its entries. -/
inductive FsEntry where
  | file (name : String)
  | dir (name : String) (entries : FsList)
/-- List of filesystem entries (mutual with FsEntry to keep structural
recursion available). -/
inductive FsList where
  | nil
  | cons (e : FsEntry) (es : FsList)
end

/-- Conversion from an ordinary list of entries. -/
def fsOf : List FsEntry → FsList
  | [] => .nil
  | e :: es => .cons e (fsOf es)

/-- Directory literal helper. -/
def fdir (n : String) (es : List FsEntry) : FsEntry := .dir n (fsOf es)

/-- File literal helper. -/
def ffile (n : String) : FsEntry := .file n

/-- Names of the files directly inside a directory listing. -/
def fsNames : FsList → List String
  | .nil => []
  | .cons (.file n) es => n :: fsNames es
  | .cons (.dir _ _) es => fsNames es

/-- Subdirectory entries directly inside a directory listing. -/
def fsDirs : FsList → List FsEntry
  | .nil => []
  | .cons (.file _) es => fsDirs es
  | .cons (.dir n inner) es => .dir n inner :: fsDirs es

mutual
/-- Modelled from the spec: a navigation node is a category (with ordered
children and no content) or a topic (a leaf with its available content
variants).  The order component is the decoded order key; `none` is the
sentinel for unprefixed names. -/
inductive NavNode where
  | category (slug : String) (order : Option Nat) (children : NavList)
  | topic (slug : String) (order : Option Nat) (variants : List Variant)
/-- List of navigation nodes (mutual with NavNode to keep structural
recursion available). -/
inductive NavList where
  | nil
  | cons (n : NavNode) (ns : NavList)
end

/-- Conversion from an ordinary list of nodes. -/
def navOf : List NavNode → NavList
  | [] => .nil
  | n :: ns => .cons n (navOf ns)

/-- Conversion to an ordinary list of nodes. -/
def listOf : NavList → List NavNode
  | .nil => []
  | .cons n ns => n :: listOf ns

/-- Slug of a node. -/
def nodeSlug : NavNode → String
  | .category s _ _ => s
  | .topic s _ _ => s

/-- Order key of a node. -/
def nodeOrder : NavNode → Option Nat
  | .category _ o _ => o
  | .topic _ o _ => o

/-- Variants of a node (empty for categories). -/
def nodeVariants : NavNode → List Variant
  | .category _ _ _ => []
  | .topic _ _ vs => vs

/-- Children of a node as an ordinary list (empty for topics). -/
def nodeChildren : NavNode → List NavNode
  | .category _ _ cs => listOf cs
  | .topic _ _ _ => []

/-- Whether a node is a leaf topic. -/
def isTopicNode : NavNode → Bool
  | .category _ _ _ => false
  | .topic _ _ _ => true

/-- Replace the slug of a node, keeping everything else. -/
def renameSlug : NavNode → String → NavNode
  | .category _ o cs, s => .category s o cs
  | .topic _ o vs, s => .topic s o vs

/-- Decimal digit character of a value below ten. -/
def digitChar10 (n : Nat) : Char := Char.ofNat (48 + n)

/-- Fuel-indexed decimal rendering of a natural number, most significant
digit first. -/
def natToCharsFuel : Nat → Nat → List Char
  | 0, _ => []
  | fuel + 1, n =>
    if n < 10 then [digitChar10 n]
    else natToCharsFuel fuel (n / 10) ++ [digitChar10 (n % 10)]

/-- Decimal rendering of a natural number. -/
def natToChars (n : Nat) : List Char := natToCharsFuel (n + 1) n

/-- Slug suffixed with a hyphen and a decimal counter. -/
def mkSuffixed (s : String) (k : Nat) : String :=
  String.mk (s.data ++ '-' :: natToChars k)

/-- Strip a given slug followed by a hyphen from the front of a character
list, returning the remainder when the shape matches. -/
def stripSlugDash : List Char → List Char → Option (List Char)
  | [], '-' :: rest => some rest
  | [], _ => none
  | _ :: _, [] => none
  | a :: as, b :: bs => if a = b then stripSlugDash as bs else none

/-- Counter already carried by a sibling slug for a given base slug: the
decimal value after the base slug and a hyphen, zero when the shape does
not match. -/
def counterOf (s t : String) : Nat :=
  match stripSlugDash s.data t.data with
  | some ds => digitsVal ds
  | none => 0

/-- Largest counter already carried by any taken sibling slug for the given
base slug. -/
def maxCounter (s : String) (taken : List String) : Nat :=
  taken.foldl (fun a t => max a (counterOf s t)) 0

/-- Modelled from the spec: a colliding slug is disambiguated by suffixing a
counter; the counter chosen is at least 2 and larger than every counter
already carried by a taken sibling slug, so the result is fresh. -/
def freshSlug (s : String) (taken : List String) : String :=
  mkSuffixed s (max 2 (maxCounter s taken + 1))

/-- Warnings recorded during a build; every per-entry problem is recovered
and recorded here, never fatal. -/
inductive Warning where
  | malformedName (raw : String)
  | duplicateSlug (slug : String)
  | droppedEmpty (raw : String)
deriving DecidableEq

/-- Modelled from the spec: deduplication of sibling slugs.  Entries are
processed in discovery order; an entry whose slug is already taken is
renamed with a disambiguating counter suffix and a duplicate-slug warning
is recorded; no entry is ever dropped. -/
def dedupSlugs (taken : List String) : List NavNode → List NavNode × List Warning
  | [] => ([], [])
  | n :: ns =>
    if nodeSlug n ∈ taken then
      let s := freshSlug (nodeSlug n) taken
      let r := dedupSlugs (s :: taken) ns
      (renameSlug n s :: r.1, .duplicateSlug (nodeSlug n) :: r.2)
    else
      let r := dedupSlugs (nodeSlug n :: taken) ns
      (n :: r.1, r.2)

/-- Modelled from the spec: sibling sort key comparison, a pure integer
comparison on the order key with ties broken by lexicographic slug
comparison.  The sentinel order sorts after every explicit order. -/
def keyLe (a b : NavNode) : Prop :=
  orderLtB (nodeOrder a) (nodeOrder b) = true ∨
    (nodeOrder a = nodeOrder b ∧
      (charsLt (nodeSlug a).data (nodeSlug b).data = true ∨ nodeSlug a = nodeSlug b))

instance : DecidableRel keyLe := fun a b => by
  unfold keyLe
  infer_instance

/-- Modelled from the spec: variant set of a topic directory, derived from
the document files present; both variants are retained as one node when
both files exist. -/
def variantsOfFiles (files : List String) : List Variant :=
  (if files.any (fun f => classifyDoc f = Variant.questionsOnly) then [Variant.questionsOnly] else []) ++
  (if files.any (fun f => classifyDoc f = Variant.questionsAndAnswers) then [Variant.questionsAndAnswers] else [])

mutual
/-- Modelled from the spec: per-entry build step.  A file produces no node
(files only contribute variants to their parent topic).  A directory whose
decoded slug is invalid is skipped with a malformed-name warning.  A
directory containing subdirectories becomes a category whose children are
the recursively built, deduplicated and sorted child nodes; a category left
with no children is dropped.  A directory containing only files becomes a
topic whose variants are derived from the document files present; a topic
directory with no documents is dropped. -/
def buildEntry : FsEntry → Option NavNode × List Warning
  | .file _ => (none, [])
  | .dir raw es =>
    let pn := parseName raw.data
    let slug := slugChars pn.base
    if validSlug slug then
      if (fsDirs es).isEmpty then
        let files := fsNames es
        if files.isEmpty then (none, [.droppedEmpty raw])
        else
          (some (.topic (String.mk slug) pn.order (variantsOfFiles files)), [])
      else
        let r := buildRaw es
        let d := dedupSlugs [] r.1
        let cs := List.insertionSort keyLe d.1
        if cs.isEmpty then (none, .droppedEmpty raw :: (r.2 ++ d.2))
        else (some (.category (String.mk slug) pn.order (navOf cs)), r.2 ++ d.2)
    else (none, [.malformedName raw])
/-- Modelled from the spec: candidate child nodes of a directory listing in
discovery order, with the warnings produced along the way. -/
def buildRaw : FsList → List NavNode × List Warning
  | .nil => ([], [])
  | .cons e es =>
    ((buildEntry e).1.toList ++ (buildRaw es).1, (buildEntry e).2 ++ (buildRaw es).2)
end

/-- Modelled from the spec: the navigation tree build.  Candidate children
are produced in discovery order, slugs are deduplicated (later-discovered
collisions renamed), and the result is sorted by the order-then-slug key;
sorted children and the accumulated warnings are returned. -/
def buildList (es : FsList) : List NavNode × List Warning :=
  let r := buildRaw es
  let d := dedupSlugs [] r.1
  (List.insertionSort keyLe d.1, r.2 ++ d.2)

/-- Build over an ordinary entry list (discovery order is the list order). -/
def buildListOf (l : List FsEntry) : List NavNode × List Warning :=
  buildList (fsOf l)

/-- Modelled from the spec: the whole-tree build, producing the single root
category node and the warnings of the build.  Only an unreadable root is
fatal in the spec; readability is outside this model, so the root is always
built. -/
def buildRoot : FsEntry → NavNode × List Warning
  | .file n => (.category n none .nil, [])
  | .dir raw es =>
    let pn := parseName raw.data
    let r := buildList es
    (.category (String.mk (slugChars pn.base)) pn.order (navOf r.1), r.2)

/-- First child carrying the given slug. -/
def childWithSlug (s : String) : List NavNode → Option NavNode
  | [] => none
  | c :: cs => if nodeSlug c = s then some c else childWithSlug s cs

/-- Node reached from a starting node by following a slug path. -/
def nodeAt (n : NavNode) : List String → Option NavNode
  | [] => some n
  | s :: p =>
    match childWithSlug s (nodeChildren n) with
    | some c => nodeAt c p
    | none => none

/-- Errors surfaced by content resolution; every failure is a value
returned to the caller, never a crash. -/
inductive ResolveError where
  | notFound
  | notATopic
  | variantUnavailable
deriving DecidableEq

/-- Successful resolution result: the matched node, the breadcrumb from the
root to the node, the matched node's siblings, and the variant chosen for
content loading. -/
structure Resolution where
  node : NavNode
  breadcrumb : List NavNode
  siblings : List NavNode
  variant : Variant

/-- Modelled from the spec: variant selection.  An omitted request defaults
to questions-and-answers when available and questions-only otherwise; an
explicit request for an unavailable variant fails. -/
def chooseVariant (vs : List Variant) : Option Variant → Except ResolveError Variant
  | some v => if v ∈ vs then .ok v else .error .variantUnavailable
  | none =>
    if Variant.questionsAndAnswers ∈ vs then .ok .questionsAndAnswers
    else .ok .questionsOnly

/-- Modelled from the spec: path resolution walk.  Carries the reversed
breadcrumb accumulated so far and the sibling list of the current node; a
path exhausted on a category fails with the not-a-topic error, an unmatched
segment fails with the not-found error, and a matched topic selects a
variant. -/
def resolveFrom (cur : NavNode) (crumbRev : List NavNode) (sibs : List NavNode)
    (req : Option Variant) : List String → Except ResolveError Resolution
  | [] =>
    match cur with
    | .category _ _ _ => .error .notATopic
    | .topic s o vs =>
      match chooseVariant vs req with
      | .ok v =>
        .ok ⟨.topic s o vs, (NavNode.topic s o vs :: crumbRev).reverse, sibs, v⟩
      | .error e => .error e
  | s :: p =>
    match childWithSlug s (nodeChildren cur) with
    | some c =>
      resolveFrom c (cur :: crumbRev)
        ((nodeChildren cur).filter (fun m => !decide (nodeSlug m = s))) req p
    | none => .error .notFound

/-- Modelled from the spec: resolveContent maps a route path and an
optional variant request to a resolution result or an error value. -/
def resolveContent (root : NavNode) (path : List String) (req : Option Variant) :
    Except ResolveError Resolution :=
  resolveFrom root [] [] req path

mutual
/-- Every node of a tree, the node itself first. -/
def subnodes : NavNode → List NavNode
  | .category s o cs => .category s o cs :: subnodesL cs
  | .topic s o vs => [.topic s o vs]
/-- Every node of a forest. -/
def subnodesL : NavList → List NavNode
  | .nil => []
  | .cons n ns => subnodes n ++ subnodesL ns
end

mutual
/-- Paths of the leaf topics of a tree relative to the tree's parent,
paired with the topic node they lead to. -/
def topicPairs : NavNode → List (List String × NavNode)
  | .topic s o vs => [([s], .topic s o vs)]
  | .category s _ cs => (topicPairsL cs).map (fun q => (s :: q.1, q.2))
/-- Paths of the leaf topics of a forest. -/
def topicPairsL : NavList → List (List String × NavNode)
  | .nil => []
  | .cons n ns => topicPairs n ++ topicPairsL ns
end

/-- Full paths of the leaf topics of a built tree (the root's own slug is
not part of a route path). -/
def topicPaths : NavNode → List (List String × NavNode)
  | .category _ _ cs => topicPairsL cs
  | .topic _ _ _ => []

/-- Sibling-slug uniqueness invariant over a whole tree. -/
def sibOK (t : NavNode) : Prop :=
  ∀ m ∈ subnodes t, ((nodeChildren m).map nodeSlug).Nodup

/-- Content corpus of the repository, embedded verbatim: the directory tree
under src/content with every directory and document file name. -/
def contentRoot : FsEntry := fdir "content" [
  fdir "01_javascript" [
    fdir "01_fundamentals" [
      ffile "OnlyQuestions.md",
      ffile "Questions_and_Answers.md"
    ],
    fdir "02_functions" [
      ffile "Questions_and_Answers.md"
    ],
    fdir "04_arrays" [
      ffile "OnlyQuestions.md",
      ffile "Questions_and_Answers.md"
    ],
    fdir "07_es6_features" [
      ffile "Questions_and_Answers.md"
    ],
    fdir "08_dom_events" [
      ffile "OnlyQuestions.md"
    ],
    fdir "09_memory_performance" [
      ffile "OnlyQuestions.md"
    ],
    fdir "10_error_handling" [
      ffile "Questions_and_Answers.md"
    ],
    fdir "12_coding_challenges" [
      ffile "Questions_and_Answers.md"
    ]
  ],
  fdir "02_typescript" [
    fdir "01_basics" [
      ffile "OnlyQuestions.md",
      ffile "Questions_and_Answers.md"
    ],
    fdir "02_type_system" [
      ffile "OnlyQuestions.md"
    ],
    fdir "03_interfaces" [
      ffile "OnlyQuestions.md"
    ],
    fdir "04_generics" [
      ffile "OnlyQuestions.md",
      ffile "Questions_and_Answers.md"
    ],
    fdir "05_advanced_types" [
      ffile "Questions_and_Answers.md"
    ],
    fdir "06_type_guards_narrowing" [
      ffile "Questions_and_Answers.md"
    ],
    fdir "08_modules_namespaces" [
      ffile "OnlyQuestions.md"
    ],
    fdir "09_declaration_files" [
      ffile "Questions_and_Answers.md"
    ],
    fdir "10_enums" [
      ffile "OnlyQuestions.md",
      ffile "Questions_and_Answers.md"
    ],
    fdir "11_decorators" [
      ffile "OnlyQuestions.md"
    ],
    fdir "12_error_handling_strict_mode" [
      ffile "Questions_and_Answers.md"
    ],
    fdir "14_coding_challenges" [
      ffile "Questions_and_Answers.md"
    ]
  ],
  fdir "04_react.js" [
    fdir "02_components_props" [
      ffile "Questions_and_Answers.md"
    ],
    fdir "04_performance" [
      ffile "OnlyQuestions.md"
    ]
  ],
  fdir "05_next.js" [
    fdir "01_routing" [
      ffile "OnlyQuestions.md"
    ],
    fdir "02_data_fetching" [
      ffile "OnlyQuestions.md",
      ffile "Questions_and_Answers.md"
    ],
    fdir "04_optimizations" [
      ffile "Questions_and_Answers.md"
    ]
  ],
  fdir "06_node.js-express" [
    fdir "03_rest_apis_express" [
      ffile "Questions_and_Answers.md"
    ],
    fdir "04_security_middleware" [
      ffile "OnlyQuestions.md",
      ffile "Questions_and_Answers.md"
    ]
  ],
  fdir "07_go" [
    fdir "01_basics" [
      ffile "OnlyQuestions.md"
    ],
    fdir "02_concurrency" [
      ffile "OnlyQuestions.md"
    ]
  ],
  fdir "08_python" [
    fdir "01_basics" [
      ffile "OnlyQuestions.md",
      ffile "Questions_and_Answers.md"
    ]
  ],
  fdir "09_open_source" [
    fdir "01_fundamentals" [
      ffile "OnlyQuestions.md",
      ffile "Questions_and_Answers.md"
    ]
  ],
  fdir "10_applied_ai" [
    fdir "01_llm_basics" [
      ffile "Questions_and_Answers.md"
    ]
  ]
]

mutual
/-- Checker for the corpus variant naming convention: every leaf directory
(one with no subdirectories) holds at least one document file and only the
two known variant filenames. -/
def leafDocsOK : FsEntry → Bool
  | .file _ => true
  | .dir _ es =>
    if (fsDirs es).isEmpty then
      !(fsNames es).isEmpty &&
        (fsNames es).all (fun n => n = "OnlyQuestions.md" || n = "Questions_and_Answers.md")
    else leafDocsOKL es
/-- Checker over a directory listing. -/
def leafDocsOKL : FsList → Bool
  | .nil => true
  | .cons e es => leafDocsOK e && leafDocsOKL es
end

theorem charsLt_irrefl : ∀ as, charsLt as as = false := by
  intro as
  induction as with
  | nil => rfl
  | cons a as ih => simpa [charsLt] using ih

theorem charsLt_asymm : ∀ as bs, charsLt as bs = true → charsLt bs as = false := by
  intro as
  induction as with
  | nil =>
    intro bs h
    cases bs with
    | nil => simp [charsLt] at h
    | cons b bs => rfl
  | cons a as ih =>
    intro bs h
    cases bs with
    | nil => simp [charsLt] at h
    | cons b bs =>
      simp only [charsLt] at h ⊢
      by_cases hab : a = b
      · subst hab
        rw [if_pos rfl] at h ⊢
        exact ih bs h
      · have hba : ¬ b = a := fun hh => hab hh.symm
        rw [if_neg hab] at h
        rw [if_neg hba]
        have hlt : a < b := of_decide_eq_true h
        simpa using not_lt.mpr (le_of_lt hlt)

theorem charsLt_trans :
    ∀ as bs cs, charsLt as bs = true → charsLt bs cs = true → charsLt as cs = true := by
  intro as
  induction as with
  | nil =>
    intro bs cs h1 h2
    cases bs with
    | nil => exact h2
    | cons b bs =>
      cases cs with
      | nil => simp [charsLt] at h2
      | cons c cs => rfl
  | cons a as ih =>
    intro bs cs h1 h2
    cases bs with
    | nil => simp [charsLt] at h1
    | cons b bs =>
      cases cs with
      | nil => simp [charsLt] at h2
      | cons c cs =>
        simp only [charsLt] at h1 h2 ⊢
        by_cases hab : a = b <;> by_cases hbc : b = c
        · subst hab; subst hbc
          rw [if_pos rfl] at h1 h2 ⊢
          exact ih bs cs h1 h2
        · subst hab
          rw [if_pos rfl] at h1
          rw [if_neg hbc] at h2 ⊢
          exact h2
        · subst hbc
          rw [if_neg hab] at h1 ⊢
          exact h1
        · rw [if_neg hab] at h1
          rw [if_neg hbc] at h2
          have l1 : a < b := of_decide_eq_true h1
          have l2 : b < c := of_decide_eq_true h2
          have lac : a < c := lt_trans l1 l2
          by_cases hac : a = c
          · exact absurd (hac ▸ lac) (lt_irrefl c)
          · rw [if_neg hac]
            exact decide_eq_true lac

theorem charsLt_total :
    ∀ as bs, charsLt as bs = true ∨ charsLt bs as = true ∨ as = bs := by
  intro as
  induction as with
  | nil =>
    intro bs
    cases bs with
    | nil => exact Or.inr (Or.inr rfl)
    | cons b bs => exact Or.inl rfl
  | cons a as ih =>
    intro bs
    cases bs with
    | nil => exact Or.inr (Or.inl rfl)
    | cons b bs =>
      by_cases hab : a = b
      · subst hab
        rcases ih bs with h | h | h
        · exact Or.inl (by simpa [charsLt] using h)
        · exact Or.inr (Or.inl (by simpa [charsLt] using h))
        · exact Or.inr (Or.inr (by rw [h]))
      · have hba : ¬ b = a := fun hh => hab hh.symm
        rcases lt_trichotomy a b with h | h | h
        · exact Or.inl (by simp [charsLt, if_neg hab, h])
        · exact absurd h hab
        · exact Or.inr (Or.inl (by simp [charsLt, if_neg hba, h]))

theorem orderLtB_trans :
    ∀ a b c, orderLtB a b = true → orderLtB b c = true → orderLtB a c = true := by
  intro a b c h1 h2
  cases a <;> cases b <;> cases c <;> simp [orderLtB] at h1 h2 ⊢
  omega

theorem orderLtB_asymm : ∀ a b, orderLtB a b = true → orderLtB b a = false := by
  intro a b h
  cases a <;> cases b <;> simp [orderLtB] at h ⊢
  omega

theorem orderLtB_total :
    ∀ a b, orderLtB a b = true ∨ orderLtB b a = true ∨ a = b := by
  intro a b
  cases a with
  | none =>
    cases b with
    | none => exact Or.inr (Or.inr rfl)
    | some n => exact Or.inr (Or.inl rfl)
  | some m =>
    cases b with
    | none => exact Or.inl rfl
    | some n =>
      rcases Nat.lt_trichotomy m n with h | h | h
      · exact Or.inl (by simpa [orderLtB] using h)
      · exact Or.inr (Or.inr (by rw [h]))
      · exact Or.inr (Or.inl (by simpa [orderLtB] using h))

theorem keyLe_total : ∀ a b : NavNode, keyLe a b ∨ keyLe b a := by
  intro a b
  rcases orderLtB_total (nodeOrder a) (nodeOrder b) with h | h | h
  · exact Or.inl (Or.inl h)
  · exact Or.inr (Or.inl h)
  · rcases charsLt_total (nodeSlug a).data (nodeSlug b).data with h2 | h2 | h2
    · exact Or.inl (Or.inr ⟨h, Or.inl h2⟩)
    · exact Or.inr (Or.inr ⟨h.symm, Or.inl h2⟩)
    · have : nodeSlug a = nodeSlug b := by
        cases ha : nodeSlug a with
        | mk da =>
          cases hb : nodeSlug b with
          | mk db =>
            have : da = db := by
              have e1 : (nodeSlug a).data = da := by rw [ha]
              have e2 : (nodeSlug b).data = db := by rw [hb]
              rw [e1, e2] at h2
              exact h2
            rw [this]
      exact Or.inl (Or.inr ⟨h, Or.inr this⟩)

instance : IsTotal NavNode keyLe := ⟨keyLe_total⟩

theorem keyLe_trans : ∀ a b c : NavNode, keyLe a b → keyLe b c → keyLe a c := by
  intro a b c h1 h2
  rcases h1 with h1 | ⟨e1, s1⟩
  · rcases h2 with h2 | ⟨e2, s2⟩
    · exact Or.inl (orderLtB_trans _ _ _ h1 h2)
    · exact Or.inl (e2 ▸ h1)
  · rcases h2 with h2 | ⟨e2, s2⟩
    · exact Or.inl (e1 ▸ h2)
    · refine Or.inr ⟨e1.trans e2, ?_⟩
      rcases s1 with s1 | s1
      · rcases s2 with s2 | s2
        · exact Or.inl (charsLt_trans _ _ _ s1 s2)
        · exact Or.inl (s2 ▸ s1)
      · rcases s2 with s2 | s2
        · exact Or.inl (s1 ▸ s2)
        · exact Or.inr (s1.trans s2)

instance : IsTrans NavNode keyLe := ⟨keyLe_trans⟩

theorem orderLtB_irrefl : ∀ a, orderLtB a a = false := by
  intro a
  cases a <;> simp [orderLtB]

theorem keyLe_antisymmKeys :
    ∀ a b : NavNode, keyLe a b → keyLe b a →
      nodeOrder a = nodeOrder b ∧ nodeSlug a = nodeSlug b := by
  intro a b h1 h2
  rcases h1 with h1 | ⟨e1, s1⟩
  · rcases h2 with h2 | ⟨e2, s2⟩
    · exact absurd h1 (by simp [orderLtB_asymm _ _ h2])
    · exact absurd h1 (by simp [e2, orderLtB_irrefl])
  · rcases h2 with h2 | ⟨e2, s2⟩
    · exact absurd h2 (by simp [e1, orderLtB_irrefl])
    · refine ⟨e1, ?_⟩
      rcases s1 with s1 | s1
      · rcases s2 with s2 | s2
        · exact absurd s1 (by simp [charsLt_asymm _ _ s2])
        · exact s2.symm
      · exact s1

theorem digitsVal_append_digit (xs : List Char) (c : Char) :
    digitsVal (xs ++ [c]) = digitsVal xs * 10 + (c.toNat - 48) := by
  unfold digitsVal
  rw [List.foldl_append]
  rfl

theorem digitChar10_val (n : Nat) (h : n < 10) : (digitChar10 n).toNat - 48 = n := by
  interval_cases n <;> decide

theorem natToCharsFuel_val :
    ∀ f n, n < f → digitsVal (natToCharsFuel f n) = n := by
  intro f
  induction f with
  | zero => intro n h; omega
  | succ f ih =>
    intro n h
    by_cases h10 : n < 10
    · have : natToCharsFuel (f + 1) n = [digitChar10 n] := by
        simp [natToCharsFuel, h10]
      rw [this]
      have : digitsVal [digitChar10 n] = (digitChar10 n).toNat - 48 := by
        simp [digitsVal]
      rw [this, digitChar10_val n h10]
    · have hrw : natToCharsFuel (f + 1) n =
          natToCharsFuel f (n / 10) ++ [digitChar10 (n % 10)] := by
        simp [natToCharsFuel, h10]
      have hdiv : n / 10 < f := by
        have h2 : n / 10 < n := Nat.div_lt_self (by omega) (by omega)
        omega
      rw [hrw, digitsVal_append_digit, ih _ hdiv,
        digitChar10_val _ (Nat.mod_lt _ (by omega))]
      omega

theorem natToChars_val (n : Nat) : digitsVal (natToChars n) = n :=
  natToCharsFuel_val (n + 1) n (Nat.lt_succ_self n)

theorem stripSlugDash_append :
    ∀ s ds : List Char, stripSlugDash s (s ++ '-' :: ds) = some ds := by
  intro s
  induction s with
  | nil => intro ds; rfl
  | cons a as ih => intro ds; simpa [stripSlugDash] using ih ds

theorem counterOf_suffixed (s : String) (k : Nat) :
    counterOf s (mkSuffixed s k) = k := by
  unfold counterOf mkSuffixed
  have : (String.mk (s.data ++ '-' :: natToChars k)).data = s.data ++ '-' :: natToChars k := rfl
  rw [this, stripSlugDash_append]
  exact natToChars_val k

theorem foldl_max_init_le (s : String) :
    ∀ (l : List String) (a : Nat), a ≤ l.foldl (fun a t => max a (counterOf s t)) a := by
  intro l
  induction l with
  | nil => intro a; exact le_refl a
  | cons x xs ih =>
    intro a
    calc a ≤ max a (counterOf s x) := le_max_left _ _
      _ ≤ xs.foldl (fun a t => max a (counterOf s t)) (max a (counterOf s x)) := ih _

theorem foldl_max_le (s : String) :
    ∀ (l : List String) (a : Nat) (t : String), t ∈ l →
      counterOf s t ≤ l.foldl (fun a t => max a (counterOf s t)) a := by
  intro l
  induction l with
  | nil => intro a t ht; cases ht
  | cons x xs ih =>
    intro a t ht
    rcases List.mem_cons.mp ht with h | h
    · subst h
      calc counterOf s t ≤ max a (counterOf s t) := le_max_right _ _
        _ ≤ xs.foldl (fun a u => max a (counterOf s u)) (max a (counterOf s t)) :=
            foldl_max_init_le s xs _
    · exact ih _ t h

theorem freshSlug_not_mem (s : String) (taken : List String) :
    freshSlug s taken ∉ taken := by
  intro hmem
  have hcount : counterOf s (freshSlug s taken) = max 2 (maxCounter s taken + 1) :=
    counterOf_suffixed s _
  have hle : counterOf s (freshSlug s taken) ≤ maxCounter s taken :=
    foldl_max_le s taken 0 _ hmem
  rw [hcount] at hle
  omega

theorem nodeSlug_renameSlug (n : NavNode) (s : String) : nodeSlug (renameSlug n s) = s := by
  cases n <;> rfl

theorem dedupSlugs_nodup :
    ∀ (ns : List NavNode) (taken : List String),
      (((dedupSlugs taken ns).1.map nodeSlug).Nodup ∧
        ∀ s ∈ (dedupSlugs taken ns).1.map nodeSlug, s ∉ taken) := by
  intro ns
  induction ns with
  | nil => intro taken; simp [dedupSlugs]
  | cons n ns ih =>
    intro taken
    by_cases hmem : nodeSlug n ∈ taken
    · have hd : dedupSlugs taken (n :: ns) =
          (renameSlug n (freshSlug (nodeSlug n) taken) :: (dedupSlugs (freshSlug (nodeSlug n) taken :: taken) ns).1,
            .duplicateSlug (nodeSlug n) :: (dedupSlugs (freshSlug (nodeSlug n) taken :: taken) ns).2) := by
        simp [dedupSlugs, hmem]
      obtain ⟨ihn, ihm⟩ := ih (freshSlug (nodeSlug n) taken :: taken)
      rw [hd]
      constructor
      · refine List.nodup_cons.mpr ⟨?_, ihn⟩
        rw [nodeSlug_renameSlug]
        intro hcon
        exact (ihm _ hcon) (List.mem_cons_self _ _)
      · intro s hs
        rcases List.mem_cons.mp hs with h | h
        · rw [h, nodeSlug_renameSlug]
          exact freshSlug_not_mem _ _
        · intro hcon
          exact (ihm s h) (List.mem_cons_of_mem _ hcon)
    · have hd : dedupSlugs taken (n :: ns) =
          (n :: (dedupSlugs (nodeSlug n :: taken) ns).1,
            (dedupSlugs (nodeSlug n :: taken) ns).2) := by
        simp [dedupSlugs, hmem]
      obtain ⟨ihn, ihm⟩ := ih (nodeSlug n :: taken)
      rw [hd]
      constructor
      · refine List.nodup_cons.mpr ⟨?_, ihn⟩
        intro hcon
        exact (ihm _ hcon) (List.mem_cons_self _ _)
      · intro s hs
        rcases List.mem_cons.mp hs with h | h
        · rw [h]; exact hmem
        · intro hcon
          exact (ihm s h) (List.mem_cons_of_mem _ hcon)

/-- Relation between an input entry and its deduplicated output: either
unchanged, or renamed with a counter suffix of at least 2. -/
def dedupRel (orig out : NavNode) : Prop :=
  out = orig ∨ ∃ k, 2 ≤ k ∧ out = renameSlug orig (mkSuffixed (nodeSlug orig) k)

theorem dedupSlugs_forall₂ :
    ∀ (ns : List NavNode) (taken : List String),
      List.Forall₂ dedupRel ns (dedupSlugs taken ns).1 := by
  intro ns
  induction ns with
  | nil => intro taken; simp [dedupSlugs]
  | cons n ns ih =>
    intro taken
    by_cases hmem : nodeSlug n ∈ taken
    · have hd : (dedupSlugs taken (n :: ns)).1 =
          renameSlug n (freshSlug (nodeSlug n) taken) ::
            (dedupSlugs (freshSlug (nodeSlug n) taken :: taken) ns).1 := by
        simp [dedupSlugs, hmem]
      rw [hd]
      refine List.Forall₂.cons ?_ (ih _)
      exact Or.inr ⟨max 2 (maxCounter (nodeSlug n) taken + 1), le_max_left _ _, rfl⟩
    · have hd : (dedupSlugs taken (n :: ns)).1 =
          n :: (dedupSlugs (nodeSlug n :: taken) ns).1 := by
        simp [dedupSlugs, hmem]
      rw [hd]
      exact List.Forall₂.cons (Or.inl rfl) (ih _)

theorem dedupSlugs_id_of_nodup :
    ∀ (ns : List NavNode) (taken : List String),
      (ns.map nodeSlug).Nodup → (∀ s ∈ ns.map nodeSlug, s ∉ taken) →
      dedupSlugs taken ns = (ns, []) := by
  intro ns
  induction ns with
  | nil => intro taken _ _; rfl
  | cons n ns ih =>
    intro taken hnd hdis
    have hmem : nodeSlug n ∉ taken := hdis _ (by simp)
    have hnd' : (ns.map nodeSlug).Nodup := (List.nodup_cons.mp (by simpa using hnd)).2
    have hhead : nodeSlug n ∉ ns.map nodeSlug := (List.nodup_cons.mp (by simpa using hnd)).1
    have hdis' : ∀ s ∈ ns.map nodeSlug, s ∉ nodeSlug n :: taken := by
      intro s hs
      intro hcon
      rcases List.mem_cons.mp hcon with h | h
      · exact hhead (h ▸ hs)
      · exact (hdis s (List.mem_cons_of_mem _ hs)) h
    have := ih (nodeSlug n :: taken) hnd' hdis'
    simp [dedupSlugs, hmem, this]

theorem dedupSlugs_nodup_of_no_warning :
    ∀ (ns : List NavNode) (taken : List String),
      (dedupSlugs taken ns).2 = [] →
      (ns.map nodeSlug).Nodup ∧ ∀ s ∈ ns.map nodeSlug, s ∉ taken := by
  intro ns
  induction ns with
  | nil => intro taken _; simp
  | cons n ns ih =>
    intro taken hw
    by_cases hmem : nodeSlug n ∈ taken
    · exfalso
      have : (dedupSlugs taken (n :: ns)).2 =
          .duplicateSlug (nodeSlug n) :: (dedupSlugs (freshSlug (nodeSlug n) taken :: taken) ns).2 := by
        simp [dedupSlugs, hmem]
      rw [this] at hw
      exact List.cons_ne_nil _ _ hw
    · have hw' : (dedupSlugs (nodeSlug n :: taken) ns).2 = [] := by
        have : (dedupSlugs taken (n :: ns)).2 = (dedupSlugs (nodeSlug n :: taken) ns).2 := by
          simp [dedupSlugs, hmem]
        rw [this] at hw
        exact hw
      obtain ⟨ihn, ihm⟩ := ih _ hw'
      constructor
      · refine List.nodup_cons.mpr ⟨?_, ihn⟩
        intro hcon
        exact (ihm _ hcon) (List.mem_cons_self _ _)
      · intro s hs
        rcases List.mem_cons.mp hs with h | h
        · rw [h]; exact hmem
        · intro hcon
          exact (ihm s h) (List.mem_cons_of_mem _ hcon)

theorem fsRecPair (P : FsEntry → Prop) (Q : FsList → Prop)
    (h1 : ∀ n, P (FsEntry.file n))
    (h2 : ∀ n es, Q es → P (FsEntry.dir n es))
    (h3 : Q FsList.nil)
    (h4 : ∀ e es, P e → Q es → Q (FsList.cons e es)) :
    (∀ e, P e) ∧ (∀ es, Q es) :=
  ⟨fun e => @FsEntry.rec P Q h1 h2 h3 h4 e, fun es => @FsList.rec P Q h1 h2 h3 h4 es⟩

theorem navRecPair (P : NavNode → Prop) (Q : NavList → Prop)
    (h1 : ∀ s o cs, Q cs → P (NavNode.category s o cs))
    (h2 : ∀ s o vs, P (NavNode.topic s o vs))
    (h3 : Q NavList.nil)
    (h4 : ∀ n ns, P n → Q ns → Q (NavList.cons n ns)) :
    (∀ n, P n) ∧ (∀ ns, Q ns) :=
  ⟨fun n => @NavNode.rec P Q h1 h2 h3 h4 n, fun ns => @NavList.rec P Q h1 h2 h3 h4 ns⟩

theorem listOf_navOf : ∀ l : List NavNode, listOf (navOf l) = l := by
  intro l
  induction l with
  | nil => rfl
  | cons n ns ih => simp [navOf, listOf, ih]

theorem mem_subnodesL_navOf :
    ∀ (cs : List NavNode) (m : NavNode),
      m ∈ subnodesL (navOf cs) ↔ ∃ c ∈ cs, m ∈ subnodes c := by
  intro cs
  induction cs with
  | nil =>
    intro m
    simp [navOf, subnodesL]
  | cons c cs ih =>
    intro m
    have : subnodesL (navOf (c :: cs)) = subnodes c ++ subnodesL (navOf cs) := rfl
    rw [this]
    constructor
    · intro h
      rcases List.mem_append.mp h with h | h
      · exact ⟨c, List.mem_cons_self _ _, h⟩
      · obtain ⟨x, hx, hm⟩ := (ih m).mp h
        exact ⟨x, List.mem_cons_of_mem _ hx, hm⟩
    · rintro ⟨x, hx, hm⟩
      rcases List.mem_cons.mp hx with h | h
      · exact List.mem_append.mpr (Or.inl (h ▸ hm))
      · exact List.mem_append.mpr (Or.inr ((ih m).mpr ⟨x, h, hm⟩))

theorem forall₂_mem_right {R : NavNode → NavNode → Prop} :
    ∀ {l₁ l₂ : List NavNode}, List.Forall₂ R l₁ l₂ → ∀ b ∈ l₂, ∃ a ∈ l₁, R a b := by
  intro l₁ l₂ h
  induction h with
  | nil => intro b hb; cases hb
  | @cons a b l₁ l₂ hR hT ih =>
    intro x hx
    rcases List.mem_cons.mp hx with h | h
    · exact ⟨a, List.mem_cons_self _ _, h ▸ hR⟩
    · obtain ⟨a', ha', hr⟩ := ih x h
      exact ⟨a', List.mem_cons_of_mem _ ha', hr⟩

/-- Whole-tree invariant established by the builder: every node has
pairwise-distinct child slugs, and every topic node has a nonempty variant
set. -/
def treeInv (t : NavNode) : Prop :=
  ∀ m ∈ subnodes t,
    ((nodeChildren m).map nodeSlug).Nodup ∧
      (isTopicNode m = true → nodeVariants m ≠ [])

theorem treeInv_renameSlug (n : NavNode) (s : String) (h : treeInv n) :
    treeInv (renameSlug n s) := by
  cases n with
  | category s0 o cs =>
    intro m hm
    have hsub : subnodes (renameSlug (NavNode.category s0 o cs) s) =
        NavNode.category s o cs :: subnodesL cs := rfl
    rw [hsub] at hm
    rcases List.mem_cons.mp hm with hh | hh
    · subst hh
      have horig := h (NavNode.category s0 o cs) (by simp [subnodes])
      constructor
      · have : nodeChildren (NavNode.category s o cs) =
            nodeChildren (NavNode.category s0 o cs) := rfl
        rw [this]
        exact horig.1
      · intro hcon
        exact absurd hcon (by simp [isTopicNode])
    · exact h m (by simp [subnodes, hh])
  | topic s0 o vs =>
    intro m hm
    have hsub : subnodes (renameSlug (NavNode.topic s0 o vs) s) =
        [NavNode.topic s o vs] := rfl
    rw [hsub] at hm
    rcases List.mem_cons.mp hm with hh | hh
    · subst hh
      have horig := h (NavNode.topic s0 o vs) (by simp [subnodes])
      refine ⟨by simp [nodeChildren], ?_⟩
      intro _
      have hne : nodeVariants (NavNode.topic s0 o vs) ≠ [] := horig.2 rfl
      simpa [nodeVariants] using hne
    · cases hh

theorem variantsOfFiles_ne_nil (files : List String) (h : files ≠ []) :
    variantsOfFiles files ≠ [] := by
  cases files with
  | nil => exact absurd rfl h
  | cons f fs =>
    unfold variantsOfFiles
    cases hc : classifyDoc f with
    | questionsOnly =>
      have : (f :: fs).any (fun g => classifyDoc g = Variant.questionsOnly) = true := by
        simp [List.any_cons, hc]
      rw [this]
      simp
    | questionsAndAnswers =>
      have : (f :: fs).any (fun g => classifyDoc g = Variant.questionsAndAnswers) = true := by
        simp [List.any_cons, hc]
      rw [this]
      intro hcon
      exact absurd (List.append_eq_nil.mp hcon).2 (by simp)

theorem buildList_eq (es : FsList) :
    buildList es =
      (List.insertionSort keyLe (dedupSlugs [] (buildRaw es).1).1,
        (buildRaw es).2 ++ (dedupSlugs [] (buildRaw es).1).2) := rfl

theorem buildList_nodup (es : FsList) :
    ((buildList es).1.map nodeSlug).Nodup := by
  rw [buildList_eq]
  have hperm : (List.insertionSort keyLe (dedupSlugs [] (buildRaw es).1).1).Perm
      (dedupSlugs [] (buildRaw es).1).1 := List.perm_insertionSort _ _
  exact ((hperm.map nodeSlug).symm).nodup (dedupSlugs_nodup (buildRaw es).1 []).1

theorem buildList_origin (es : FsList) :
    ∀ n ∈ (buildList es).1, ∃ orig ∈ (buildRaw es).1, dedupRel orig n := by
  rw [buildList_eq]
  intro n hn
  have hperm : (List.insertionSort keyLe (dedupSlugs [] (buildRaw es).1).1).Perm
      (dedupSlugs [] (buildRaw es).1).1 := List.perm_insertionSort _ _
  exact forall₂_mem_right (dedupSlugs_forall₂ (buildRaw es).1 []) n (hperm.subset hn)

theorem buildList_treeInv (es : FsList)
    (h : ∀ n ∈ (buildRaw es).1, treeInv n) :
    ∀ c ∈ (buildList es).1, treeInv c := by
  intro c hc
  obtain ⟨orig, horig, hrel⟩ := buildList_origin es c hc
  rcases hrel with hrel | ⟨k, _, hrel⟩
  · exact hrel ▸ h orig horig
  · exact hrel ▸ treeInv_renameSlug orig _ (h orig horig)

theorem treeInv_category (s : String) (o : Option Nat) (cs : List NavNode)
    (hnd : (cs.map nodeSlug).Nodup) (hcs : ∀ c ∈ cs, treeInv c) :
    treeInv (NavNode.category s o (navOf cs)) := by
  intro m hm
  have hsub : subnodes (NavNode.category s o (navOf cs)) =
      NavNode.category s o (navOf cs) :: subnodesL (navOf cs) := rfl
  rw [hsub] at hm
  rcases List.mem_cons.mp hm with hh | hh
  · subst hh
    refine ⟨?_, ?_⟩
    · have : nodeChildren (NavNode.category s o (navOf cs)) = cs := by
        simp [nodeChildren, listOf_navOf]
      rw [this]
      exact hnd
    · intro hcon
      exact absurd hcon (by simp [isTopicNode])
  · obtain ⟨c, hc, hmc⟩ := (mem_subnodesL_navOf cs m).mp hh
    exact hcs c hc m hmc

theorem build_treeInv_pair :
    (∀ e, ∀ n, (buildEntry e).1 = some n → treeInv n) ∧
    (∀ es, ∀ n ∈ (buildRaw es).1, treeInv n) := by
  refine fsRecPair (fun e => ∀ n, (buildEntry e).1 = some n → treeInv n)
      (fun es => ∀ n ∈ (buildRaw es).1, treeInv n) ?_ ?_ ?_ ?_
  · intro nm n h
    exact absurd h (by simp [buildEntry])
  · intro raw es ih n h
    by_cases hv : validSlug (slugChars (parseName raw.data).base) = true
    · by_cases hdirs : (fsDirs es).isEmpty = true
      · by_cases hfiles : (fsNames es).isEmpty = true
        · exact absurd h (by simp [buildEntry, hv, hdirs, hfiles])
        · have hn : n = NavNode.topic (String.mk (slugChars (parseName raw.data).base))
              (parseName raw.data).order (variantsOfFiles (fsNames es)) := by
            have := h
            simp [buildEntry, hv, hdirs, hfiles] at this
            exact this.symm
          subst hn
          intro m hm
          rcases List.mem_cons.mp hm with hh | hh
          · subst hh
            refine ⟨by simp [nodeChildren], ?_⟩
            intro _
            refine variantsOfFiles_ne_nil _ ?_
            intro hcon
            rw [hcon] at hfiles
            exact hfiles (by simp)
          · cases hh
      · by_cases hcs : (List.insertionSort keyLe (dedupSlugs [] (buildRaw es).1).1).isEmpty = true
        · exact absurd h (by simp [buildEntry, hv, hdirs, hcs])
        · have hn : n = NavNode.category (String.mk (slugChars (parseName raw.data).base))
              (parseName raw.data).order
              (navOf (List.insertionSort keyLe (dedupSlugs [] (buildRaw es).1).1)) := by
            have := h
            simp [buildEntry, hv, hdirs, hcs] at this
            exact this.symm
          subst hn
          refine treeInv_category _ _ _ ?_ ?_
          · exact buildList_nodup es
          · exact buildList_treeInv es ih
    · rw [Bool.not_eq_true] at hv
      exact absurd h (by simp [buildEntry, hv])
  · intro n h
    exact absurd h (by simp [buildRaw])
  · intro e es ihP ihQ n hn
    have : (buildRaw (FsList.cons e es)).1 = (buildEntry e).1.toList ++ (buildRaw es).1 := rfl
    rw [this] at hn
    rcases List.mem_append.mp hn with h | h
    · cases hbe : (buildEntry e).1 with
      | none => rw [hbe] at h; cases h
      | some m =>
        rw [hbe] at h
        have : n = m := by simpa [Option.toList] using h
        exact this ▸ ihP m hbe
    · exact ihQ n h

theorem buildRoot_treeInv : ∀ fs, treeInv (buildRoot fs).1 := by
  intro fs
  cases fs with
  | file nm =>
    intro m hm
    rcases List.mem_cons.mp hm with hh | hh
    · subst hh
      exact ⟨by simp [nodeChildren, listOf], by simp [isTopicNode]⟩
    · cases hh
  | dir raw es =>
    have : (buildRoot (FsEntry.dir raw es)).1 =
        NavNode.category (String.mk (slugChars (parseName raw.data).base))
          (parseName raw.data).order (navOf (buildList es).1) := rfl
    rw [this]
    refine treeInv_category _ _ _ ?_ ?_
    · exact buildList_nodup es
    · exact buildList_treeInv es (build_treeInv_pair.2 es)

theorem childWithSlug_mem :
    ∀ (cs : List NavNode) (s : String) (c : NavNode),
      childWithSlug s cs = some c → c ∈ cs ∧ nodeSlug c = s := by
  intro cs
  induction cs with
  | nil => intro s c h; cases h
  | cons x xs ih =>
    intro s c h
    by_cases hx : nodeSlug x = s
    · have : some x = some c := by simpa [childWithSlug, hx] using h
      have hc : x = c := Option.some.inj this
      exact ⟨hc ▸ List.mem_cons_self _ _, hc ▸ hx⟩
    · have h' : childWithSlug s xs = some c := by simpa [childWithSlug, hx] using h
      obtain ⟨hm, hs⟩ := ih s c h'
      exact ⟨List.mem_cons_of_mem _ hm, hs⟩

theorem childWithSlug_self :
    ∀ (cs : List NavNode) (c : NavNode), (cs.map nodeSlug).Nodup → c ∈ cs →
      childWithSlug (nodeSlug c) cs = some c := by
  intro cs
  induction cs with
  | nil => intro c _ hc; cases hc
  | cons x xs ih =>
    intro c hnd hc
    rw [List.map_cons] at hnd
    have hnd' := List.nodup_cons.mp hnd
    rcases List.mem_cons.mp hc with h | h
    · subst h
      simp [childWithSlug]
    · by_cases hx : nodeSlug x = nodeSlug c
      · exfalso
        exact hnd'.1 (hx ▸ List.mem_map_of_mem nodeSlug h)
      · simpa [childWithSlug, hx] using ih c hnd'.2 h

theorem resolveFrom_notFound :
    ∀ (p : List String) (cur : NavNode) (crumbRev sibs : List NavNode) (req : Option Variant),
      nodeAt cur p = none → resolveFrom cur crumbRev sibs req p = .error .notFound := by
  intro p
  induction p with
  | nil => intro cur _ _ _ h; cases h
  | cons s p ih =>
    intro cur crumbRev sibs req h
    cases hc : childWithSlug s (nodeChildren cur) with
    | none => simp [resolveFrom, hc]
    | some c =>
      have h' : nodeAt c p = none := by simpa [nodeAt, hc] using h
      simpa [resolveFrom, hc] using ih c _ _ req h'

theorem resolveFrom_category :
    ∀ (p : List String) (cur : NavNode) (crumbRev sibs : List NavNode) (req : Option Variant)
      (s : String) (o : Option Nat) (cs : NavList),
      nodeAt cur p = some (.category s o cs) →
      resolveFrom cur crumbRev sibs req p = .error .notATopic := by
  intro p
  induction p with
  | nil =>
    intro cur _ _ _ s o cs h
    have : cur = NavNode.category s o cs := Option.some.inj (by simpa [nodeAt] using h)
    subst this
    rfl
  | cons x p ih =>
    intro cur crumbRev sibs req s o cs h
    cases hc : childWithSlug x (nodeChildren cur) with
    | none => rw [nodeAt, hc] at h; cases h
    | some c =>
      rw [nodeAt, hc] at h
      simpa [resolveFrom, hc] using ih c _ _ req s o cs h

theorem resolveFrom_topic :
    ∀ (p : List String) (cur : NavNode) (crumbRev sibs : List NavNode) (req : Option Variant)
      (s : String) (o : Option Nat) (vs : List Variant),
      nodeAt cur p = some (.topic s o vs) →
      ((∀ e, chooseVariant vs req = .error e → resolveFrom cur crumbRev sibs req p = .error e) ∧
        (∀ v, chooseVariant vs req = .ok v →
          ∃ r, resolveFrom cur crumbRev sibs req p = .ok r ∧
            r.node = NavNode.topic s o vs ∧ r.variant = v)) := by
  intro p
  induction p with
  | nil =>
    intro cur crumbRev sibs req s o vs h
    have : cur = NavNode.topic s o vs := Option.some.inj (by simpa [nodeAt] using h)
    subst this
    constructor
    · intro e he
      simp [resolveFrom, he]
    · intro v hv
      refine ⟨⟨NavNode.topic s o vs, (NavNode.topic s o vs :: crumbRev).reverse, sibs, v⟩, ?_, rfl, rfl⟩
      simp [resolveFrom, hv]
  | cons x p ih =>
    intro cur crumbRev sibs req s o vs h
    cases hc : childWithSlug x (nodeChildren cur) with
    | none => rw [nodeAt, hc] at h; cases h
    | some c =>
      rw [nodeAt, hc] at h
      obtain ⟨he, ho⟩ := ih c (cur :: crumbRev)
        ((nodeChildren cur).filter (fun m => !decide (nodeSlug m = x))) req s o vs h
      constructor
      · intro e hee
        simpa [resolveFrom, hc] using he e hee
      · intro v hv
        obtain ⟨r, hr, hn, hvv⟩ := ho v hv
        exact ⟨r, by simpa [resolveFrom, hc] using hr, hn, hvv⟩

theorem resolveFrom_ok_crumb :
    ∀ (p : List String) (cur : NavNode) (crumbRev sibs : List NavNode)
      (req : Option Variant) (r : Resolution),
      resolveFrom cur crumbRev sibs req p = .ok r →
      ∃ mid, r.breadcrumb = crumbRev.reverse ++ mid ∧ mid.length = p.length + 1 ∧
        mid.head? = some cur ∧ mid.getLast? = some r.node ∧
        List.Chain' (fun a b => b ∈ nodeChildren a) mid := by
  intro p
  induction p with
  | nil =>
    intro cur crumbRev sibs req r h
    cases cur with
    | category s o cs => cases h
    | topic s o vs =>
      cases hcv : chooseVariant vs req with
      | error e => rw [resolveFrom, hcv] at h; cases h
      | ok v =>
        rw [resolveFrom, hcv] at h
        have hr : r = ⟨NavNode.topic s o vs, (NavNode.topic s o vs :: crumbRev).reverse, sibs, v⟩ :=
          (Except.ok.inj h).symm
        subst hr
        refine ⟨[NavNode.topic s o vs], by simp, rfl, rfl, rfl, List.chain'_singleton _⟩
  | cons x p ih =>
    intro cur crumbRev sibs req r h
    cases hc : childWithSlug x (nodeChildren cur) with
    | none => rw [resolveFrom, hc] at h; cases h
    | some c =>
      simp only [resolveFrom, hc] at h
      obtain ⟨mid, hbc, hlen, hhead, hlast, hchain⟩ := ih c (cur :: crumbRev) _ req r h
      cases mid with
      | nil => cases hhead
      | cons m0 mid' =>
        have hm0 : m0 = c := Option.some.inj hhead
        refine ⟨cur :: m0 :: mid', ?_, by simpa using hlen, rfl, ?_, ?_⟩
        · rw [hbc]
          simp
        · simpa [List.getLast?_cons_cons] using hlast
        · refine List.chain'_cons.mpr ⟨?_, hchain⟩
          rw [hm0]
          exact (childWithSlug_mem _ _ _ hc).1

/-- Per-node round-trip statement: any leaf-topic path registered for this
node resolves from this node (after its own slug has been consumed) to that
very topic. -/
def RoundTripAt (t : NavNode) : Prop :=
  ∀ q n (crumbRev sibs : List NavNode), treeInv t →
    ((nodeSlug t :: q, n) ∈ topicPairs t) →
    ∃ r, resolveFrom t crumbRev sibs none q = Except.ok r ∧ r.node = n

/-- Children of a node as a NavList. -/
def nodeChildrenL : NavNode → NavList
  | .category _ _ cs => cs
  | .topic _ _ _ => .nil

theorem navListInd (Q : NavList → Prop) (h3 : Q NavList.nil)
    (h4 : ∀ n ns, Q ns → Q (NavList.cons n ns)) : ∀ ns, Q ns :=
  fun ns => @NavList.rec (fun _ => True) Q (fun _ _ _ _ => trivial) (fun _ _ _ => trivial)
    h3 (fun n ns _ hq => h4 n ns hq) ns

theorem mem_topicPairsL :
    ∀ (cs : NavList) (p : List String) (n : NavNode),
      (p, n) ∈ topicPairsL cs ↔ ∃ c ∈ listOf cs, (p, n) ∈ topicPairs c := by
  refine navListInd (fun cs => ∀ p n,
      ((p, n) ∈ topicPairsL cs ↔ ∃ c ∈ listOf cs, (p, n) ∈ topicPairs c)) ?_ ?_
  · intro p n
    simp [topicPairsL, listOf]
  · intro c cs ih p n
    have hrw : topicPairsL (NavList.cons c cs) = topicPairs c ++ topicPairsL cs := rfl
    rw [hrw]
    constructor
    · intro h
      rcases List.mem_append.mp h with h | h
      · exact ⟨c, List.mem_cons_self _ _, h⟩
      · obtain ⟨x, hx, hm⟩ := (ih p n).mp h
        exact ⟨x, List.mem_cons_of_mem _ hx, hm⟩
    · rintro ⟨x, hx, hm⟩
      rcases List.mem_cons.mp hx with h | h
      · exact List.mem_append.mpr (Or.inl (h ▸ hm))
      · exact List.mem_append.mpr (Or.inr ((ih p n).mpr ⟨x, h, hm⟩))

theorem topicPairs_shape :
    ∀ (t : NavNode) (p : List String) (n : NavNode),
      (p, n) ∈ topicPairs t → ∃ q, p = nodeSlug t :: q := by
  intro t p n h
  cases t with
  | topic s o vs =>
    have : (p, n) = ([s], NavNode.topic s o vs) := by simpa [topicPairs] using h
    exact ⟨[], by simpa [nodeSlug] using congrArg Prod.fst this⟩
  | category s o cs =>
    rw [topicPairs] at h
    obtain ⟨q, _, hq⟩ := List.mem_map.mp h
    exact ⟨q.1, by simpa [nodeSlug] using (congrArg Prod.fst hq).symm⟩

theorem mem_subnodesL_of_mem :
    ∀ (cs : NavList) (c m : NavNode), c ∈ listOf cs → m ∈ subnodes c → m ∈ subnodesL cs := by
  refine navListInd (fun cs => ∀ c m, c ∈ listOf cs → m ∈ subnodes c → m ∈ subnodesL cs) ?_ ?_
  · intro c m hc _
    cases hc
  · intro x xs ih c m hc hm
    have hrw : subnodesL (NavList.cons x xs) = subnodes x ++ subnodesL xs := rfl
    rw [hrw]
    rcases List.mem_cons.mp hc with h | h
    · exact List.mem_append.mpr (Or.inl (h ▸ hm))
    · exact List.mem_append.mpr (Or.inr (ih c m h hm))

theorem subnodes_self_mem : ∀ t : NavNode, t ∈ subnodes t := by
  intro t
  cases t with
  | category s o cs => exact List.mem_cons_self _ _
  | topic s o vs => exact List.mem_cons_self _ _

theorem treeInv_child (t c : NavNode) (h : treeInv t) (hc : c ∈ nodeChildren t) :
    treeInv c := by
  cases t with
  | topic s o vs => cases hc
  | category s o cs =>
    intro m hm
    have hcl : c ∈ listOf cs := by simpa [nodeChildren] using hc
    have : m ∈ subnodes (NavNode.category s o cs) :=
      List.mem_cons_of_mem _ (mem_subnodesL_of_mem cs c m hcl hm)
    exact h m this

theorem forestStep (t : NavNode)
    (hP : ∀ c ∈ listOf (nodeChildrenL t), RoundTripAt c) (hinv : treeInv t) :
    ∀ (p : List String) (n : NavNode) (crumbRev sibs : List NavNode),
      (p, n) ∈ topicPairsL (nodeChildrenL t) →
      ∃ r, resolveFrom t crumbRev sibs none p = Except.ok r ∧ r.node = n := by
  intro p n crumbRev sibs hp
  obtain ⟨c, hc, hm⟩ := (mem_topicPairsL _ p n).mp hp
  obtain ⟨q, hq⟩ := topicPairs_shape c p n hm
  subst hq
  have hchildren : nodeChildren t = listOf (nodeChildrenL t) := by
    cases t <;> rfl
  have hnd : ((nodeChildren t).map nodeSlug).Nodup := (hinv t (subnodes_self_mem t)).1
  have hfind : childWithSlug (nodeSlug c) (nodeChildren t) = some c := by
    rw [hchildren]
    exact childWithSlug_self _ c (by rw [← hchildren]; exact hnd) hc
  have hinvc : treeInv c := treeInv_child t c hinv (by rw [hchildren]; exact hc)
  obtain ⟨r, hr, hn⟩ := hP c hc q n (t :: crumbRev)
    ((nodeChildren t).filter (fun m => !decide (nodeSlug m = nodeSlug c))) hinvc hm
  refine ⟨r, ?_, hn⟩
  rw [resolveFrom, hfind]
  exact hr

theorem chooseVariant_none_ok (vs : List Variant) :
    ∃ v, chooseVariant vs none = Except.ok v := by
  by_cases hm : Variant.questionsAndAnswers ∈ vs
  · exact ⟨Variant.questionsAndAnswers, by simp [chooseVariant, hm]⟩
  · exact ⟨Variant.questionsOnly, by simp [chooseVariant, hm]⟩

theorem roundTripAt_all : ∀ t, RoundTripAt t := by
  have := navRecPair RoundTripAt (fun cs => ∀ c ∈ listOf cs, RoundTripAt c) ?_ ?_ ?_ ?_
  · exact this.1
  · intro s o cs hQ q n crumbRev sibs hinv hp
    have hshape : topicPairs (NavNode.category s o cs) =
        (topicPairsL cs).map (fun q => (s :: q.1, q.2)) := rfl
    rw [hshape] at hp
    obtain ⟨q', hq', heq⟩ := List.mem_map.mp hp
    have hq1 : q'.1 = q := by
      have := congrArg Prod.fst heq
      simpa [nodeSlug] using this
    have hq2 : q'.2 = n := congrArg Prod.snd heq
    have hp' : (q, n) ∈ topicPairsL cs := by
      rw [← hq1, ← hq2]
      exact hq'
    exact forestStep (NavNode.category s o cs) hQ hinv q n crumbRev sibs hp'
  · intro s o vs q n crumbRev sibs hinv hp
    have hmem : (nodeSlug (NavNode.topic s o vs) :: q, n) ∈ [([s], NavNode.topic s o vs)] := hp
    have heq := List.mem_singleton.mp hmem
    have hq : q = [] := by
      have h1 := congrArg Prod.fst heq
      simp [nodeSlug] at h1
      exact h1
    have hn : n = NavNode.topic s o vs := congrArg Prod.snd heq
    subst hq
    subst hn
    obtain ⟨v, hv⟩ := chooseVariant_none_ok vs
    refine ⟨⟨NavNode.topic s o vs, (NavNode.topic s o vs :: crumbRev).reverse, sibs, v⟩, ?_, rfl⟩
    simp [resolveFrom, hv]
  · intro c hc; cases hc
  · intro x xs hP hQ c hc
    rcases List.mem_cons.mp hc with h | h
    · exact h ▸ hP
    · exact hQ c h

theorem takeLeadingDigits_split :
    ∀ cs : List Char, cs = (takeLeadingDigits cs).1 ++ (takeLeadingDigits cs).2 ∧
      ∀ c ∈ (takeLeadingDigits cs).1, c.isDigit = true := by
  intro cs
  induction cs with
  | nil => exact ⟨rfl, by intro c hc; cases hc⟩
  | cons c cs ih =>
    by_cases hd : c.isDigit = true
    · have hrw : takeLeadingDigits (c :: cs) =
          (c :: (takeLeadingDigits cs).1, (takeLeadingDigits cs).2) := by
        simp [takeLeadingDigits, hd]
      refine ⟨?_, ?_⟩
      · rw [hrw]
        simpa using ih.1
      · rw [hrw]
        intro x hx
        rcases List.mem_cons.mp hx with h | h
        · exact h ▸ hd
        · exact ih.2 x h
    · have hrw : takeLeadingDigits (c :: cs) = ([], c :: cs) := by
        simp [takeLeadingDigits, hd]
      refine ⟨by rw [hrw]; rfl, by rw [hrw]; intro x hx; cases hx⟩

theorem parseName_of_tl_nil (cs ds : List Char) (h : takeLeadingDigits cs = (ds, [])) :
    parseName cs = ⟨none, cs⟩ := by
  unfold parseName
  rw [h]

theorem parseName_of_tl_cons (cs ds : List Char) (s : Char) (rest : List Char)
    (h : takeLeadingDigits cs = (ds, s :: rest)) :
    parseName cs =
      if ds.isEmpty then ⟨none, cs⟩
      else if isSep s && !rest.isEmpty then ⟨some (digitsVal ds), rest⟩
      else ⟨none, cs⟩ := by
  unfold parseName
  rw [h]

theorem sep_not_digit : ∀ s : Char, (s = '_' ∨ s = '-') → s.isDigit = false := by
  intro s hs
  rcases hs with h | h <;> subst h <;> decide

theorem takeLeadingDigits_of_digits :
    ∀ (ds : List Char) (s : Char) (rest : List Char),
      (∀ c ∈ ds, c.isDigit = true) → s.isDigit = false →
      takeLeadingDigits (ds ++ s :: rest) = (ds, s :: rest) := by
  intro ds
  induction ds with
  | nil =>
    intro s rest _ hs
    simp [takeLeadingDigits, hs]
  | cons d ds ih =>
    intro s rest hdig hs
    have hd : d.isDigit = true := hdig d (List.mem_cons_self _ _)
    have := ih s rest (fun c hc => hdig c (List.mem_cons_of_mem _ hc)) hs
    simp [takeLeadingDigits, hd, this]

theorem parseName_matched :
    ∀ (ds : List Char) (s : Char) (rest : List Char),
      ds ≠ [] → (∀ c ∈ ds, c.isDigit = true) → (s = '_' ∨ s = '-') → rest ≠ [] →
      parseName (ds ++ s :: rest) = ⟨some (digitsVal ds), rest⟩ := by
  intro ds s rest hne hdig hsep hrest
  have htl := takeLeadingDigits_of_digits ds s rest hdig (sep_not_digit s hsep)
  have hsepb : isSep s = true := by
    rcases hsep with h | h <;> simp [isSep, h]
  have hrestb : rest.isEmpty = false := by
    cases rest with
    | nil => exact absurd rfl hrest
    | cons x xs => rfl
  have hdsb : ds.isEmpty = false := by
    cases ds with
    | nil => exact absurd rfl hne
    | cons x xs => rfl
  rw [parseName_of_tl_cons _ _ _ _ htl, hdsb, hsepb, hrestb]
  rfl

theorem parseName_unmatched :
    ∀ cs : List Char, ¬ matchesOrdered cs → parseName cs = ⟨none, cs⟩ := by
  intro cs hnm
  obtain ⟨hsplit, hdig⟩ := takeLeadingDigits_split cs
  cases htl : (takeLeadingDigits cs).2 with
  | nil =>
    exact parseName_of_tl_nil cs (takeLeadingDigits cs).1 (by rw [← htl])
  | cons s rest =>
    rw [parseName_of_tl_cons cs (takeLeadingDigits cs).1 s rest (by rw [← htl])]
    by_cases hds : (takeLeadingDigits cs).1.isEmpty = true
    · rw [hds]
      rfl
    · rw [Bool.not_eq_true] at hds
      rw [hds]
      by_cases hrest : (isSep s && !rest.isEmpty) = true
      · exfalso
        apply hnm
        refine ⟨(takeLeadingDigits cs).1, s, rest, ?_, ?_, hdig, ?_, ?_⟩
        · rw [htl] at hsplit
          exact hsplit
        · intro hcon
          rw [hcon] at hds
          exact absurd hds (by simp)
        · have hand := (Bool.and_eq_true _ _).mp hrest
          exact (by simpa [isSep] using hand.1 : s = '_' ∨ s = '-')
        · intro hcon
          have hand := (Bool.and_eq_true _ _).mp hrest
          rw [hcon] at hand
          simp at hand
      · rw [Bool.not_eq_true] at hrest
        rw [hrest]
        rfl

theorem buildRaw_fsOf_nodes :
    ∀ l : List FsEntry, (buildRaw (fsOf l)).1 = l.filterMap (fun e => (buildEntry e).1) := by
  intro l
  induction l with
  | nil => rfl
  | cons e es ih =>
    have hrw : (buildRaw (fsOf (e :: es))).1 =
        (buildEntry e).1.toList ++ (buildRaw (fsOf es)).1 := rfl
    rw [hrw, ih, List.filterMap_cons]
    cases (buildEntry e).1 <;> simp [Option.toList]

/-- Sort key of a node: the order component and the slug. -/
def nodeKey (n : NavNode) : Option Nat × String := (nodeOrder n, nodeSlug n)

theorem nodup_key_of_slug :
    ∀ l : List NavNode, (l.map nodeSlug).Nodup → (l.map nodeKey).Nodup := by
  intro l
  induction l with
  | nil => intro _; simp
  | cons n ns ih =>
    intro h
    rw [List.map_cons] at h ⊢
    have h' := List.nodup_cons.mp h
    refine List.nodup_cons.mpr ⟨?_, ih h'.2⟩
    intro hcon
    obtain ⟨m, hm, hk⟩ := List.mem_map.mp hcon
    have : nodeSlug m = nodeSlug n := congrArg Prod.snd hk
    exact h'.1 (this ▸ List.mem_map_of_mem nodeSlug hm)

theorem sorted_unique :
    ∀ (l₁ l₂ : List NavNode), l₁.Perm l₂ → List.Sorted keyLe l₁ → List.Sorted keyLe l₂ →
      (l₁.map nodeKey).Nodup → l₁ = l₂ := by
  intro l₁
  induction l₁ with
  | nil =>
    intro l₂ hperm _ _ _
    exact (hperm.nil_eq).symm ▸ rfl
  | cons a t₁ ih =>
    intro l₂ hperm hs₁ hs₂ hnd
    cases l₂ with
    | nil => exact absurd hperm.symm.nil_eq (by simp)
    | cons b t₂ =>
      have hab : a = b := by
        have ha2 : a ∈ b :: t₂ := hperm.subset (List.mem_cons_self _ _)
        rcases List.mem_cons.mp ha2 with h | h
        · exact h
        · have hb1 : b ∈ a :: t₁ := hperm.symm.subset (List.mem_cons_self _ _)
          rcases List.mem_cons.mp hb1 with h' | h' 
          · exact h'.symm
          · exfalso
            have hba : keyLe b a := (List.sorted_cons.mp hs₂).1 a h
            have hab : keyLe a b := (List.sorted_cons.mp hs₁).1 b h'
            have hkeq : nodeKey a = nodeKey b := by
              obtain ⟨ho, hsg⟩ := keyLe_antisymmKeys a b hab hba
              simp [nodeKey, ho, hsg]
            rw [List.map_cons] at hnd
            exact (List.nodup_cons.mp hnd).1 (hkeq ▸ List.mem_map_of_mem nodeKey h')
      subst hab
      have htperm : t₁.Perm t₂ := hperm.cons_inv
      have := ih t₂ htperm (List.sorted_cons.mp hs₁).2 (List.sorted_cons.mp hs₂).2
        (by rw [List.map_cons] at hnd; exact (List.nodup_cons.mp hnd).2)
      rw [this]

theorem buildRaw_warn_mem :
    ∀ (l₁ : List FsEntry) (e : FsEntry) (l₂ : List FsEntry) (w : Warning),
      w ∈ (buildEntry e).2 → w ∈ (buildRaw (fsOf (l₁ ++ e :: l₂))).2 := by
  intro l₁
  induction l₁ with
  | nil =>
    intro e l₂ w hw
    exact List.mem_append.mpr (Or.inl hw)
  | cons x xs ih =>
    intro e l₂ w hw
    exact List.mem_append.mpr (Or.inr (ih e l₂ w hw))

/-- Small demonstration corpus used by the witnesses below: two topic
directories, the first with both document variants, the second with the
questions-only file. -/
def demoFs : FsEntry := fdir "content" [
  fdir "1_js" [ffile "OnlyQuestions.md", ffile "Questions_and_Answers.md"],
  fdir "2_go" [ffile "OnlyQuestions.md"]]

/-- Root node built from the demonstration corpus. -/
def demoTree : NavNode := (buildRoot demoFs).1

/-- The js topic of the demonstration corpus. -/
def demoJs : NavNode :=
  NavNode.topic "js" (some 1) [Variant.questionsOnly, Variant.questionsAndAnswers]

/-- The go topic of the demonstration corpus. -/
def demoGo : NavNode := NavNode.topic "go" (some 2) [Variant.questionsOnly]

/-- Resolution of the js topic in the demonstration corpus. -/
def demoRes : Resolution :=
  ⟨demoJs, [demoTree, demoJs], [demoGo], Variant.questionsAndAnswers⟩

/-- A node used to demonstrate slug collisions. -/
def dupA : NavNode := NavNode.topic "a" none [Variant.questionsOnly]

/-- C1: every leaf (topic) node produced by the navigation tree builder
round-trips: calling resolveContent with that node's full path succeeds
(returns no error) and the node field of the result is that same node. -/
theorem C1_roundtrip_resolution :
    ∀ (fs : FsEntry) (p : List String) (n : NavNode),
      (p, n) ∈ topicPaths (buildRoot fs).1 →
      (resolveContent (buildRoot fs).1 p none).map Resolution.node = Except.ok n := by
  intro fs p n hp
  cases fs with
  | file nm => exact absurd hp (List.not_mem_nil _)
  | dir raw es =>
    obtain ⟨r, hr, hn⟩ := forestStep (buildRoot (FsEntry.dir raw es)).1
      (fun c _ => roundTripAt_all c) (buildRoot_treeInv _) p n [] [] hp
    show (resolveFrom (buildRoot (FsEntry.dir raw es)).1 [] [] none p).map Resolution.node =
      Except.ok n
    rw [hr]
    simp [Except.map, hn]

theorem C1_roundtrip_resolution_witness :
    ((["js"], demoJs) ∈ topicPaths (buildRoot demoFs).1) ∧
      (resolveContent (buildRoot demoFs).1 ["js"] none).map Resolution.node =
        Except.ok demoJs :=
  ⟨List.Mem.head _, C1_roundtrip_resolution demoFs ["js"] demoJs (List.Mem.head _)⟩

/-- C2 counterexample: two discovery orders of the same sibling entry set
(the names 1_a_b and 1_a-b collide on the slug a-b) are rebuilt into
different children sequences: the later-discovered entry receives the
disambiguation suffix, so the topic carrying each variant set swaps. -/
theorem C2_ordering_determinism_counterexample :
    (buildListOf [fdir "1_a_b" [ffile "OnlyQuestions.md"],
        fdir "1_a-b" [ffile "Questions_and_Answers.md"]]).1.map nodeVariants =
      [[Variant.questionsOnly], [Variant.questionsAndAnswers]] ∧
    (buildListOf [fdir "1_a-b" [ffile "Questions_and_Answers.md"],
        fdir "1_a_b" [ffile "OnlyQuestions.md"]]).1.map nodeVariants =
      [[Variant.questionsAndAnswers], [Variant.questionsOnly]] := by
  constructor <;> decide

/-- C2 (amended): sibling children sequences are always sorted by the pair
of order key and slug (integer comparison on the order, lexicographic slug
comparison breaking ties, sentinel last), and whenever no two sibling
entries resolve to the same slug the built children sequence is identical
across rebuilds regardless of the order entries were discovered in; with
slug collisions, which entry receives the disambiguation suffix depends on
discovery order. -/
theorem C2_ordering_determinism :
    (∀ l : List FsEntry, List.Sorted keyLe (buildListOf l).1) ∧
    (∀ l₁ l₂ : List FsEntry, l₁.Perm l₂ →
      ((l₁.filterMap (fun e => (buildEntry e).1)).map nodeSlug).Nodup →
      (buildListOf l₁).1 = (buildListOf l₂).1) := by
  constructor
  · intro l
    exact List.sorted_insertionSort keyLe _
  · intro l₁ l₂ hperm hnd
    have hcands : (l₁.filterMap (fun e => (buildEntry e).1)).Perm
        (l₂.filterMap (fun e => (buildEntry e).1)) := hperm.filterMap _
    have hnd₂ : ((l₂.filterMap (fun e => (buildEntry e).1)).map nodeSlug).Nodup :=
      (hcands.map nodeSlug).nodup hnd
    have hpipe : ∀ X : List FsEntry,
        (buildListOf X).1 = List.insertionSort keyLe (dedupSlugs [] (buildRaw (fsOf X)).1).1 :=
      fun X => rfl
    have hid₁ : (dedupSlugs [] (buildRaw (fsOf l₁)).1).1 = (buildRaw (fsOf l₁)).1 := by
      rw [buildRaw_fsOf_nodes]
      exact congrArg Prod.fst
        (dedupSlugs_id_of_nodup _ [] hnd (fun s _ => List.not_mem_nil s))
    have hid₂ : (dedupSlugs [] (buildRaw (fsOf l₂)).1).1 = (buildRaw (fsOf l₂)).1 := by
      rw [buildRaw_fsOf_nodes]
      exact congrArg Prod.fst
        (dedupSlugs_id_of_nodup _ [] hnd₂ (fun s _ => List.not_mem_nil s))
    rw [hpipe, hpipe, hid₁, hid₂, buildRaw_fsOf_nodes, buildRaw_fsOf_nodes]
    have hsortperm₁ := List.perm_insertionSort keyLe (l₁.filterMap (fun e => (buildEntry e).1))
    have hsortperm₂ := List.perm_insertionSort keyLe (l₂.filterMap (fun e => (buildEntry e).1))
    refine sorted_unique _ _ (hsortperm₁.trans (hcands.trans hsortperm₂.symm))
      (List.sorted_insertionSort keyLe _) (List.sorted_insertionSort keyLe _) ?_
    refine nodup_key_of_slug _ ?_
    exact ((hsortperm₁.map nodeSlug).symm).nodup hnd

theorem C2_ordering_determinism_witness :
    List.Sorted keyLe (buildListOf [fdir "2_b" [ffile "OnlyQuestions.md"],
      fdir "1_a" [ffile "OnlyQuestions.md"]]).1 ∧
    ([fdir "2_b" [ffile "OnlyQuestions.md"], fdir "1_a" [ffile "OnlyQuestions.md"]].Perm
      [fdir "1_a" [ffile "OnlyQuestions.md"], fdir "2_b" [ffile "OnlyQuestions.md"]]) ∧
    (buildListOf [fdir "2_b" [ffile "OnlyQuestions.md"],
        fdir "1_a" [ffile "OnlyQuestions.md"]]).1 =
      (buildListOf [fdir "1_a" [ffile "OnlyQuestions.md"],
        fdir "2_b" [ffile "OnlyQuestions.md"]]).1 :=
  ⟨C2_ordering_determinism.1 _,
    List.Perm.swap _ _ _,
    C2_ordering_determinism.2 _ _ (List.Perm.swap _ _ _) (by decide)⟩

/-- C3: in the built tree no two nodes sharing a parent have equal slugs;
deduplication relates every input entry to an output entry (nothing is
dropped or overwritten) that is either unchanged or suffixed with a
disambiguating counter of at least 2, and a slug collision always records a
duplicate-slug warning. -/
theorem C3_slug_uniqueness :
    (∀ fs : FsEntry, ∀ m ∈ subnodes (buildRoot fs).1,
      ((nodeChildren m).map nodeSlug).Nodup) ∧
    (∀ ns : List NavNode, List.Forall₂ dedupRel ns (dedupSlugs [] ns).1) ∧
    (∀ ns : List NavNode, ¬ (ns.map nodeSlug).Nodup → (dedupSlugs [] ns).2 ≠ []) := by
  refine ⟨?_, ?_, ?_⟩
  · intro fs m hm
    exact (buildRoot_treeInv fs m hm).1
  · intro ns
    exact dedupSlugs_forall₂ ns []
  · intro ns hnd hcon
    exact hnd (dedupSlugs_nodup_of_no_warning ns [] hcon).1

theorem C3_slug_uniqueness_witness :
    ((nodeChildren (buildRoot demoFs).1).map nodeSlug).Nodup ∧
    List.Forall₂ dedupRel [dupA, dupA] (dedupSlugs [] [dupA, dupA]).1 ∧
    decide ((dedupSlugs [] [dupA, dupA]).2 = []) = false :=
  ⟨C3_slug_uniqueness.1 demoFs _ (subnodes_self_mem _),
    C3_slug_uniqueness.2.1 [dupA, dupA],
    decide_eq_false (C3_slug_uniqueness.2.2 [dupA, dupA] (by decide))⟩

/-- C4: a directory entry whose derived slug (base name lowercased with
underscores and spaces normalized to hyphens) fails the slug pattern
produces no node and exactly a malformed-name warning; removing such an
entry from a sibling listing leaves the built children unchanged while the
warning is recorded, so the build continues.  Concretely, the corpus
directories 05_next.js and 06_node.js-express derive the slugs next.js and
node.js-express, are rejected, and are skipped with warnings in the corpus
build. -/
theorem C4_malformed_name_skipped :
    (∀ (raw : String) (es : FsList),
      validSlug (slugChars (parseName raw.data).base) = false →
      buildEntry (FsEntry.dir raw es) = (none, [Warning.malformedName raw])) ∧
    (∀ (l₁ l₂ : List FsEntry) (raw : String) (es : FsList),
      validSlug (slugChars (parseName raw.data).base) = false →
      (buildListOf (l₁ ++ FsEntry.dir raw es :: l₂)).1 = (buildListOf (l₁ ++ l₂)).1 ∧
        Warning.malformedName raw ∈ (buildListOf (l₁ ++ FsEntry.dir raw es :: l₂)).2) ∧
    (String.mk (slugChars (parseName "05_next.js".data).base) = "next.js" ∧
      validSlug (slugChars (parseName "05_next.js".data).base) = false ∧
      String.mk (slugChars (parseName "06_node.js-express".data).base) = "node.js-express" ∧
      validSlug (slugChars (parseName "06_node.js-express".data).base) = false ∧
      Warning.malformedName "05_next.js" ∈ (buildRoot contentRoot).2 ∧
      Warning.malformedName "06_node.js-express" ∈ (buildRoot contentRoot).2) := by
  have hskip : ∀ (raw : String) (es : FsList),
      validSlug (slugChars (parseName raw.data).base) = false →
      buildEntry (FsEntry.dir raw es) = (none, [Warning.malformedName raw]) := by
    intro raw es h
    simp [buildEntry, h]
  refine ⟨hskip, ?_, by decide⟩
  intro l₁ l₂ raw es h
  have hnone : (buildEntry (FsEntry.dir raw es)).1 = none :=
    congrArg Prod.fst (hskip raw es h)
  constructor
  · have hpipe : ∀ X : List FsEntry,
        (buildListOf X).1 = List.insertionSort keyLe (dedupSlugs [] (buildRaw (fsOf X)).1).1 :=
      fun X => rfl
    have hcands : (buildRaw (fsOf (l₁ ++ FsEntry.dir raw es :: l₂))).1 =
        (buildRaw (fsOf (l₁ ++ l₂))).1 := by
      rw [buildRaw_fsOf_nodes, buildRaw_fsOf_nodes, List.filterMap_append,
        List.filterMap_append, List.filterMap_cons, hnone]
    rw [hpipe, hpipe, hcands]
  · have hw : Warning.malformedName raw ∈ (buildEntry (FsEntry.dir raw es)).2 := by
      rw [hskip raw es h]
      exact List.mem_cons_self _ _
    have : (buildListOf (l₁ ++ FsEntry.dir raw es :: l₂)).2 =
        (buildRaw (fsOf (l₁ ++ FsEntry.dir raw es :: l₂))).2 ++
          (dedupSlugs [] (buildRaw (fsOf (l₁ ++ FsEntry.dir raw es :: l₂))).1).2 := rfl
    rw [this]
    exact List.mem_append.mpr (Or.inl (buildRaw_warn_mem l₁ _ l₂ _ hw))

theorem C4_malformed_name_skipped_witness :
    buildEntry (FsEntry.dir "x.y" FsList.nil) = (none, [Warning.malformedName "x.y"]) ∧
    (buildListOf [fdir "1_a" [ffile "OnlyQuestions.md"], FsEntry.dir "x.y" FsList.nil]).1 =
      (buildListOf [fdir "1_a" [ffile "OnlyQuestions.md"]]).1 ∧
    Warning.malformedName "x.y" ∈
      (buildListOf [fdir "1_a" [ffile "OnlyQuestions.md"], FsEntry.dir "x.y" FsList.nil]).2 :=
  ⟨C4_malformed_name_skipped.1 "x.y" FsList.nil (by decide),
    (C4_malformed_name_skipped.2.1 [fdir "1_a" [ffile "OnlyQuestions.md"]] [] "x.y"
      FsList.nil (by decide)).1,
    (C4_malformed_name_skipped.2.1 [fdir "1_a" [ffile "OnlyQuestions.md"]] [] "x.y"
      FsList.nil (by decide)).2⟩

/-- C5: the PathOrderCodec parsing rule: a raw name of the shape one or more
digits, an underscore or hyphen separator, and a nonempty remainder parses
to the digits as the explicit order with the remainder as base name; a name
not of that shape parses to the sentinel order with the unmodified name as
base; and the sentinel order sorts strictly after every explicit order. -/
theorem C5_parse_rule :
    (∀ (ds : List Char) (s : Char) (rest : List Char),
      ds ≠ [] → (∀ c ∈ ds, c.isDigit = true) → (s = '_' ∨ s = '-') → rest ≠ [] →
      parseName (ds ++ s :: rest) = ⟨some (digitsVal ds), rest⟩) ∧
    (∀ cs : List Char, ¬ matchesOrdered cs → parseName cs = ⟨none, cs⟩) ∧
    (∀ k : Nat, orderLtB (some k) none = true) :=
  ⟨parseName_matched, parseName_unmatched, fun _ => rfl⟩

theorem C5_parse_rule_witness :
    parseName ("07_go".data) = ⟨some 7, "go".data⟩ ∧
    parseName ("content".data) = ⟨none, "content".data⟩ ∧
    orderLtB (some 7) none = true := by
  refine ⟨?_, ?_, C5_parse_rule.2.2 7⟩
  · exact C5_parse_rule.1 ['0', '7'] '_' "go".data (by decide) (by decide)
      (Or.inl rfl) (by decide)
  · refine C5_parse_rule.2.1 ("content".data) ?_
    rintro ⟨ds, s, rest, heq, hne, hdig, _, _⟩
    cases ds with
    | nil => exact hne rfl
    | cons d ds' =>
      have hd : 'c' = d := by
        have h2 := congrArg List.head? heq
        simpa using h2
      have hdd := hdig d (List.mem_cons_self _ _)
      rw [← hd] at hdd
      exact absurd hdd (by decide)

/-- C6 counterexample: in the tree built from the embedded corpus, the topic
at path javascript/functions carries the questions-and-answers variant only
and has no questions-only variant, so a topic node does not carry
questionsOnly at minimum. -/
theorem C6_variant_minimum_counterexample :
    (nodeAt (buildRoot contentRoot).1 ["javascript", "functions"]).map nodeVariants =
      some [Variant.questionsAndAnswers] := by
  decide

/-- C6 (amended): every topic node in a built tree has at least one content
variant (a topic directory with no parseable documents is dropped from the
tree), but the guaranteed minimum is not questionsOnly: a topic may carry
only the questionsAndAnswers variant, as happens in the corpus for topic
directories holding only a Questions_and_Answers.md file. -/
theorem C6_topic_has_variant :
    ∀ fs : FsEntry, ∀ m ∈ subnodes (buildRoot fs).1,
      isTopicNode m = true → nodeVariants m ≠ [] := by
  intro fs m hm ht
  exact (buildRoot_treeInv fs m hm).2 ht

theorem C6_topic_has_variant_witness :
    (demoGo ∈ subnodes (buildRoot demoFs).1) ∧ isTopicNode demoGo = true ∧
      decide (nodeVariants demoGo = []) = false :=
  ⟨List.Mem.tail _ (List.Mem.tail _ (List.Mem.head _)), rfl,
    decide_eq_false (C6_topic_has_variant demoFs demoGo
      (List.Mem.tail _ (List.Mem.tail _ (List.Mem.head _))) rfl)⟩

/-- C7: resolution error contract: a slug path matching no node fails with
the not-found error, and a path matching a category node fails with the
not-a-topic error; in both cases the total resolution function returns an
error value to the caller. -/
theorem C7_resolution_errors :
    ∀ (root : NavNode) (p : List String) (req : Option Variant),
      (nodeAt root p = none → resolveContent root p req = .error .notFound) ∧
      (∀ s o cs, nodeAt root p = some (NavNode.category s o cs) →
        resolveContent root p req = .error .notATopic) :=
  fun root p req =>
    ⟨resolveFrom_notFound p root [] [] req,
      fun s o cs h => resolveFrom_category p root [] [] req s o cs h⟩

theorem C7_resolution_errors_witness :
    resolveContent (buildRoot demoFs).1 ["nope"] none = .error .notFound ∧
    resolveContent (buildRoot demoFs).1 [] none = .error .notATopic :=
  ⟨(C7_resolution_errors (buildRoot demoFs).1 ["nope"] none).1 rfl,
    (C7_resolution_errors (buildRoot demoFs).1 [] none).2 "content" none
      (navOf [demoJs, demoGo]) rfl⟩

/-- C8: variant selection on a matched topic: with the variant request
omitted, the resolved variant is questionsAndAnswers when that variant is
present on the node and questionsOnly otherwise; an explicitly requested
variant outside the node's variant set fails with the variant-unavailable
error value. -/
theorem C8_variant_selection :
    ∀ (root : NavNode) (p : List String) (s : String) (o : Option Nat) (vs : List Variant),
      nodeAt root p = some (NavNode.topic s o vs) →
      ((Variant.questionsAndAnswers ∈ vs →
        (resolveContent root p none).map Resolution.variant =
          Except.ok Variant.questionsAndAnswers) ∧
      (Variant.questionsAndAnswers ∉ vs →
        (resolveContent root p none).map Resolution.variant =
          Except.ok Variant.questionsOnly) ∧
      (∀ w, w ∉ vs → resolveContent root p (some w) = .error .variantUnavailable)) := by
  intro root p s o vs h
  refine ⟨?_, ?_, ?_⟩
  · intro hin
    obtain ⟨r, hr, _, hv⟩ := (resolveFrom_topic p root [] [] none s o vs h).2
      Variant.questionsAndAnswers (by simp [chooseVariant, hin])
    show (resolveFrom root [] [] none p).map Resolution.variant =
      Except.ok Variant.questionsAndAnswers
    rw [hr]
    simp [Except.map, hv]
  · intro hnin
    obtain ⟨r, hr, _, hv⟩ := (resolveFrom_topic p root [] [] none s o vs h).2
      Variant.questionsOnly (by simp [chooseVariant, hnin])
    show (resolveFrom root [] [] none p).map Resolution.variant =
      Except.ok Variant.questionsOnly
    rw [hr]
    simp [Except.map, hv]
  · intro w hw
    exact (resolveFrom_topic p root [] [] (some w) s o vs h).1 .variantUnavailable
      (by simp [chooseVariant, hw])

theorem C8_variant_selection_witness :
    (resolveContent (buildRoot demoFs).1 ["js"] none).map Resolution.variant =
      Except.ok Variant.questionsAndAnswers ∧
    (resolveContent (buildRoot demoFs).1 ["go"] none).map Resolution.variant =
      Except.ok Variant.questionsOnly ∧
    resolveContent (buildRoot demoFs).1 ["go"] (some Variant.questionsAndAnswers) =
      .error .variantUnavailable :=
  ⟨(C8_variant_selection (buildRoot demoFs).1 ["js"] "js" (some 1)
      [Variant.questionsOnly, Variant.questionsAndAnswers] rfl).1 (by decide),
    (C8_variant_selection (buildRoot demoFs).1 ["go"] "go" (some 2)
      [Variant.questionsOnly] rfl).2.1 (by decide),
    (C8_variant_selection (buildRoot demoFs).1 ["go"] "go" (some 2)
      [Variant.questionsOnly] rfl).2.2 Variant.questionsAndAnswers (by decide)⟩

/-- C9: breadcrumb correctness: a successful resolution of a path of length
d returns a breadcrumb of length d+1 whose first element is the root, whose
last element is the matched node, and in which every consecutive pair is a
parent-child pair, so the breadcrumb is the ordered list of ancestors from
the root to the matched node. -/
theorem C9_breadcrumb :
    ∀ (root : NavNode) (p : List String) (req : Option Variant) (r : Resolution),
      resolveContent root p req = .ok r →
      r.breadcrumb.length = p.length + 1 ∧ r.breadcrumb.head? = some root ∧
        r.breadcrumb.getLast? = some r.node ∧
        List.Chain' (fun a b => b ∈ nodeChildren a) r.breadcrumb := by
  intro root p req r h
  obtain ⟨mid, hbc, hlen, hhead, hlast, hchain⟩ := resolveFrom_ok_crumb p root [] [] req r h
  have hmid : r.breadcrumb = mid := by simpa using hbc
  rw [hmid]
  exact ⟨hlen, hhead, hlast, hchain⟩

theorem C9_breadcrumb_witness :
    resolveContent demoTree ["js"] none = Except.ok demoRes ∧
      (demoRes.breadcrumb.length = (["js"] : List String).length + 1 ∧
        demoRes.breadcrumb.head? = some demoTree ∧
        demoRes.breadcrumb.getLast? = some demoRes.node ∧
        List.Chain' (fun a b => b ∈ nodeChildren a) demoRes.breadcrumb) :=
  ⟨rfl, C9_breadcrumb demoTree ["js"] none demoRes rfl⟩

/-- C10: in the embedded content corpus, every leaf topic directory holds
document files drawn only from the two filenames OnlyQuestions.md and
Questions_and_Answers.md, with at least one of the two present. -/
theorem C10_corpus_variant_files : leafDocsOK contentRoot = true := by
  decide
